import Mathlib

/-!
Shallow embedding of `src/Python/phate/phate.py` (PHATE pipeline).

Modelling conventions:
* IEEE-754 doubles are modelled as exact rationals extended with the special
  values `+inf`, `-inf` and `NaN` (type `EF`).  Rounding is abstracted away
  (rational arithmetic is exact), but the special-value semantics of
  division by zero, comparisons with NaN, `np.exp`, `np.log` and the
  elementwise masking operations are modelled faithfully.
* Transcendental functions (`np.exp`, `np.log`, the distance metric of
  `scipy.spatial.distance.pdist`) do not restrict to the rationals, so the
  pipeline definitions are parametrised by abstract functions `e : ℚ → ℚ`
  (float exp on the nonpositive arguments arising in the kernel; underflow
  to 0 is representable), `lg : ℚ → ℚ` (float log on positive finite
  arguments, where the float result is always finite) and
  `d : List ℚ → List ℚ → ℚ` (the pairwise distance).  For concrete
  evaluations we use one-dimensional points, whose euclidean distance
  `|x - y|` is exactly rational.
* The external MDS routine (`from .mds import embed_MDS`) is not part of
  the repository sources; per the spec (§6) it is an external collaborator
  returning an n×d coordinate matrix, so it is modelled as an abstract
  function parameter `mdsFn`.
* Matrices are lists of row lists; `numpy` broadcasting and transposition
  are translated index-by-index.
* Under default numpy settings a floating-point `RuntimeWarning` (e.g.
  "divide by zero encountered") is a warning, not a raised exception, so
  the `try/except RuntimeWarning` in `calculate_kernel` never transfers
  control; `calculate_kernel` is therefore modelled as a total function.
-/

/-- Extended float value: finite rational, `+inf`, `-inf` or `NaN`. -/
inductive EF where
  | fin (q : ℚ)
  | inf
  | neginf
  | nan
deriving DecidableEq

namespace EF

/-- IEEE addition on extended values. -/
def add : EF → EF → EF
  | nan, _ => nan
  | _, nan => nan
  | inf, neginf => nan
  | neginf, inf => nan
  | inf, _ => inf
  | _, inf => inf
  | neginf, _ => neginf
  | _, neginf => neginf
  | fin p, fin q => fin (p + q)

/-- IEEE multiplication on extended values. -/
def mul : EF → EF → EF
  | nan, _ => nan
  | _, nan => nan
  | inf, inf => inf
  | inf, neginf => neginf
  | neginf, inf => neginf
  | neginf, neginf => inf
  | inf, fin q => if q = 0 then nan else if 0 < q then inf else neginf
  | fin q, inf => if q = 0 then nan else if 0 < q then inf else neginf
  | neginf, fin q => if q = 0 then nan else if 0 < q then neginf else inf
  | fin q, neginf => if q = 0 then nan else if 0 < q then neginf else inf
  | fin p, fin q => fin (p * q)

/-- IEEE negation. -/
def neg : EF → EF
  | nan => nan
  | inf => neginf
  | neginf => inf
  | fin q => fin (-q)

/-- IEEE division on extended values (signed zeros are not modelled;
division of a nonzero finite value by zero uses the sign of the
numerator, matching numpy on nonnegative data). -/
def div : EF → EF → EF
  | nan, _ => nan
  | _, nan => nan
  | inf, inf => nan
  | inf, neginf => nan
  | neginf, inf => nan
  | neginf, neginf => nan
  | inf, fin q => if 0 ≤ q then inf else neginf
  | neginf, fin q => if 0 ≤ q then neginf else inf
  | fin _, inf => fin 0
  | fin _, neginf => fin 0
  | fin p, fin q =>
      if q = 0 then (if p = 0 then nan else if 0 < p then inf else neginf)
      else fin (p / q)

/-- Integer power, `x ** a` for a nonnegative integer exponent
(numpy: `x ** 0 = 1` even for `NaN`/`inf`). -/
def pow (x : EF) (a : ℕ) : EF :=
  if a = 0 then fin 1
  else
    match x with
    | nan => nan
    | inf => inf
    | neginf => if a % 2 = 0 then inf else neginf
    | fin q => fin (q ^ a)

/-- IEEE `<=` comparison as a Bool: any comparison with `NaN` is false. -/
def le : EF → EF → Bool
  | nan, _ => false
  | _, nan => false
  | neginf, _ => true
  | _, neginf => false
  | _, inf => true
  | inf, _ => false
  | fin p, fin q => decide (p ≤ q)

/-- IEEE `==` comparison as a Bool: any comparison with `NaN` is false. -/
def beq : EF → EF → Bool
  | nan, _ => false
  | _, nan => false
  | inf, inf => true
  | neginf, neginf => true
  | fin p, fin q => decide (p = q)
  | _, _ => false

/-- True exactly on finite values. -/
def isFinite : EF → Bool
  | fin _ => true
  | _ => false

/-- True exactly on `NaN`. -/
def isNan : EF → Bool
  | nan => true
  | _ => false

/-- Float `exp` on extended values; the abstract `e` gives the value on
finite arguments (in the kernel code path the finite argument is always
nonpositive, so the float result is finite, possibly underflowing to 0). -/
def expF (e : ℚ → ℚ) : EF → EF
  | nan => nan
  | inf => inf
  | neginf => fin 0
  | fin q => fin (e q)

/-- Float `log` composed with negation, `-1 * np.log x`; the abstract `lg`
gives the float log of a positive finite argument (always finite). -/
def negLog (lg : ℚ → ℚ) : EF → EF
  | nan => nan
  | inf => neginf
  | neginf => nan
  | fin q => if q < 0 then nan else if q = 0 then inf else fin (-(lg q))

end EF

/-- `np.sum` of a list of extended floats. -/
def efSum (l : List EF) : EF := l.foldr EF.add (EF.fin 0)

/-- Insertion into a sorted rational list (ascending). -/
def insertQ (x : ℚ) : List ℚ → List ℚ
  | [] => [x]
  | y :: ys => if x ≤ y then x :: y :: ys else y :: insertQ x ys

/-- Ascending sort of a rational list (`np.sort` on a row of finite
distances). -/
def sortQ : List ℚ → List ℚ
  | [] => []
  | x :: xs => insertQ x (sortQ xs)

/-- Division of two finite floats, with IEEE zero-division results. -/
def efDivQ (p q : ℚ) : EF :=
  if q = 0 then (if p = 0 then EF.nan else if 0 < p then EF.inf else EF.neginf)
  else EF.fin (p / q)

/-- Elementwise matrix addition. -/
def matAddEF (A B : List (List EF)) : List (List EF) :=
  List.zipWith (fun r s => List.zipWith EF.add r s) A B

/-- Transpose of a square matrix. -/
def transposeEF (A : List (List EF)) : List (List EF) :=
  (List.range A.length).map (fun i => A.map (fun row => row.getD i (EF.fin 0)))

/-- Matrix product: entry `(i, j)` is `Σ_k A[i][k] * B[k][j]`. -/
def matMulEF (A B : List (List EF)) : List (List EF) :=
  A.map (fun r =>
    (List.range (B.headD []).length).map (fun j =>
      efSum (List.zipWith (fun x br => EF.mul x (br.getD j (EF.fin 0))) r B)))

/-- Identity matrix (`np.linalg.matrix_power(A, 0)`). -/
def idMat (n : ℕ) : List (List EF) :=
  (List.range n).map (fun i =>
    (List.range n).map (fun j => if i = j then EF.fin 1 else EF.fin 0))

/-- `np.linalg.matrix_power` by repeated multiplication (exact arithmetic
makes the multiplication order irrelevant). -/
def matPowEF (A : List (List EF)) : ℕ → List (List EF)
  | 0 => idMat A.length
  | t + 1 => matMulEF (matPowEF A t) A

/-- Machine epsilon `np.finfo(float).eps` as an exact rational. -/
def machEps : ℚ := 1 / 2 ^ 52

/-- One entry of the numerical floor of `embed_mds`:
`X[X == 0] = eps` followed by `X[X <= eps] = eps`.  The two whole-matrix
passes act elementwise and independently, so they compose per entry. -/
def floorEntry (eps : ℚ) (x : EF) : EF :=
  let x1 := if EF.beq x (EF.fin 0) then EF.fin eps else x
  if EF.le x1 (EF.fin eps) then EF.fin eps else x1

/-- The numerical floor applied to the whole matrix. -/
def floorEps (eps : ℚ) (X : List (List EF)) : List (List EF) :=
  X.map (fun row => row.map (floorEntry eps))

/-- Diffusion potential of `embed_mds` (phate.py lines 155-161):
`X = matrix_power(diff_op, t)`, floor zeros / small values to machine
epsilon, then `-1 * np.log(X)`. -/
def diffPotential (lg : ℚ → ℚ) (eps : ℚ) (dop : List (List EF)) (t : ℕ) :
    List (List EF) :=
  (floorEps eps (matPowEF dop t)).map (fun row => row.map (EF.negLog lg))

/-- `calculate_kernel` (phate.py lines 20-36).  `d` is the abstract
pairwise distance of `pdist`, `e` the abstract float `exp`.
Under default numpy settings the `except RuntimeWarning` branch is dead
code (numpy floating-point warnings are not raised as exceptions), so the
function always returns the kernel, NaN/inf entries included. -/
def calculate_kernel (d : List ℚ → List ℚ → ℚ) (e : ℚ → ℚ)
    (M : List (List ℚ)) (a k : ℕ) : List (List EF) :=
  let pdx : List (List ℚ) := M.map (fun r => M.map (fun s => d r s))
  let eps : List ℚ := pdx.map (fun row => (sortQ row).getD k 0)
  let n := M.length
  let scaled : List (List EF) := (List.range n).map (fun i =>
    (List.range n).map (fun j =>
      efDivQ ((pdx.getD j []).getD i 0) (eps.getD i 0)))
  let gs : List (List EF) := scaled.map (fun row =>
    row.map (fun x => EF.expF e (EF.neg (EF.pow x a))))
  matAddEF gs (transposeEF gs)

/-- Row-stochastic normalization `gs_ker / gs_ker.sum(axis=1)[:, None]`
(phate.py line 86); no zero-row check is performed. -/
def rowNormalize (K : List (List EF)) : List (List EF) :=
  K.map (fun row => row.map (fun x => EF.div x (efSum row)))

/-- `calculate_operator` (phate.py lines 39-94), data/timing prints
omitted.  When `gs_ker` is `None` the precomputed `diff_op` is discarded
and the kernel is rebuilt; when `diff_op` is `None` the operator is the
row normalization of the kernel. -/
def calculate_operator (d : List ℚ → List ℚ → ℚ) (e : ℚ → ℚ)
    (data : List (List ℚ)) (a k : ℕ)
    (gs_ker : Option (List (List EF))) (diff_op : Option (List (List EF))) :
    List (List EF) × List (List EF) :=
  match gs_ker with
  | none =>
      let g := calculate_kernel d e data a k
      (g, rowNormalize g)
  | some g =>
      match diff_op with
      | none => (g, rowNormalize g)
      | some p => (g, p)

/-- Number of invocations of the kernel-construction step performed by
`calculate_operator`: `calculate_kernel` is called exactly when the
`gs_ker` argument is `None`. -/
def calculate_operator_kernel_calls (gs_ker : Option (List (List EF))) : ℕ :=
  match gs_ker with
  | none => 1
  | some _ => 0

/-- Distance-metric names appearing as strings in the source; modelled as
an inert tagged enumeration (only identity of the tag matters). -/
inductive MetName where
  | euclidean
  | cosine
deriving DecidableEq

/-- MDS-variant names (`'classic' | 'metric' | 'nonmetric'`). -/
inductive MDSKind where
  | classic
  | metric
  | nonmetric
deriving DecidableEq

/-- Type of the external MDS collaborator `embed_MDS` (not in the
repository sources; per spec §6 it maps the potential matrix, the target
dimensionality, the MDS variant and the MDS distance metric to an
n×d coordinate matrix).  Modelled from the spec: abstract function. -/
def MDSFun : Type :=
  List (List EF) → ℕ → MDSKind → Option MetName → List (List ℚ)

/-- `embed_mds` (phate.py lines 97-183), prints omitted.  When the
precomputed potential is absent, the supplied embedding is discarded
(`embedding = None`) and the potential is recomputed; then the embedding
is recomputed whenever it is (now) absent.  Returns
`(embedding, diff_potential)`. -/
def embed_mds (mdsFn : MDSFun) (lg : ℚ → ℚ) (dop : List (List EF)) (t : ℕ)
    (n_components : ℕ) (diff_potential : Option (List (List EF)))
    (embedding : Option (List (List ℚ))) (mds : MDSKind)
    (mds_dist : Option MetName) : List (List ℚ) × List (List EF) :=
  let pe : List (List EF) × Option (List (List ℚ)) :=
    match diff_potential with
    | none => (diffPotential lg machEps dop t, none)
    | some p => (p, embedding)
  let emb : List (List ℚ) :=
    match pe.2 with
    | none => mdsFn pe.1 n_components mds mds_dist
    | some e1 => e1
  (emb, pe.1)

/-- The attribute state of a `PHATE` instance (phate.py lines 259-277).
`verbose`, `random_state` and `njobs` only affect printing and are
pass-through to the external MDS routine, so they are omitted.
`knn_dist` is carried as an inert tag; the semantic distance function is
passed separately to `fit`.  `n_components_attr` models the attribute
`self.n_components`, which `__init__` never sets (it stores the
constructor argument in `self.ndim`) and only `reset_mds` creates. -/
@[ext]
structure PHATEState where
  ndim : ℕ
  a : ℕ
  k : ℕ
  t : ℕ
  mds : MDSKind
  knn_dist : MetName
  mds_dist : Option MetName
  n_components_attr : Option ℕ
  gs_ker : Option (List (List EF))
  diff_op : Option (List (List EF))
  diff_potential : Option (List (List EF))
  embedding : Option (List (List ℚ))
  X : Option (List (List ℚ))
deriving DecidableEq

/-- The state produced by `PHATE.__init__` with default parameters. -/
def initState : PHATEState where
  ndim := 2
  a := 10
  k := 5
  t := 30
  mds := MDSKind.metric
  knn_dist := MetName.euclidean
  mds_dist := some MetName.euclidean
  n_components_attr := none
  gs_ker := none
  diff_op := none
  diff_potential := none
  embedding := none
  X := none

/-- `PHATE.reset_mds` (phate.py lines 279-286).  Note the source tests
`if mds_dist is None: self.mds_dist = mds_dist`, so a `None` argument
overwrites the stored metric with `None` and a non-`None` argument is
discarded. -/
def reset_mds (s : PHATEState) (n_components : Option ℕ) (mds : Option MDSKind)
    (mds_dist : Option MetName) : PHATEState :=
  let s1 := match n_components with
    | some v => { s with n_components_attr := some v }
    | none => s
  let s2 := match mds with
    | some v => { s1 with mds := v }
    | none => s1
  let s3 := match mds_dist with
    | none => { s2 with mds_dist := none }
    | some _ => s2
  { s3 with embedding := none }

/-- `PHATE.reset_diffusion` (phate.py lines 288-291): store `t` when
given, then clear only `diff_potential`. -/
def reset_diffusion (s : PHATEState) (t : Option ℕ) : PHATEState :=
  let s1 := match t with
    | some v => { s with t := v }
    | none => s
  { s1 with diff_potential := none }

/-- The cache-clearing prefix of `PHATE.fit` (phate.py lines 307-315):
if a previous input matrix exists and differs elementwise from `X`,
clear kernel, operator, potential and embedding. -/
def fitCleared (s : PHATEState) (X : List (List ℚ)) : PHATEState :=
  match s.X with
  | none => s
  | some x0 =>
      if X = x0 then s
      else { s with gs_ker := none, diff_op := none,
                    diff_potential := none, embedding := none }

/-- `PHATE.fit` up to the call of `calculate_operator` (phate.py lines
307-318): clear on new data, store `X`, and clear the potential when the
kernel or the operator is absent. -/
def fitPre (s : PHATEState) (X : List (List ℚ)) : PHATEState :=
  if ({ fitCleared s X with X := some X }).gs_ker = none ∨
      ({ fitCleared s X with X := some X }).diff_op = none
  then { fitCleared s X with X := some X, diff_potential := none }
  else { fitCleared s X with X := some X }

/-- `PHATE.fit` (phate.py lines 293-323). -/
def fit (d : List ℚ → List ℚ → ℚ) (e : ℚ → ℚ) (s : PHATEState)
    (X : List (List ℚ)) : PHATEState :=
  { fitPre s X with
    gs_ker := some (calculate_operator d e X (fitPre s X).a (fitPre s X).k
      (fitPre s X).gs_ker (fitPre s X).diff_op).1,
    diff_op := some (calculate_operator d e X (fitPre s X).a (fitPre s X).k
      (fitPre s X).gs_ker (fitPre s X).diff_op).2 }

/-- Number of invocations of the kernel-construction step performed by a
call to `fit`. -/
def fitKernelCalls (s : PHATEState) (X : List (List ℚ)) : ℕ :=
  calculate_operator_kernel_calls (fitPre s X).gs_ker

/-- The two exceptions `PHATE.transform` can raise: the out-of-sample
`RuntimeWarning` (raised as an exception at phate.py line 350) and
`sklearn`'s `NotFittedError` (line 354). -/
inductive PhateErr where
  | runtimeWarning
  | notFitted
deriving DecidableEq

/-- `PHATE.transform` (phate.py lines 325-366).  An `error` result models
a raised exception: the raise precedes every attribute mutation, so the
instance state is unchanged on failure.  On success the result carries
the mutated state and the returned embedding. -/
def transform (mdsFn : MDSFun) (lg : ℚ → ℚ) (s : PHATEState)
    (Xarg : Option (List (List ℚ))) (targ : Option ℕ) :
    Except PhateErr (PHATEState × List (List ℚ)) :=
  let oos : Bool :=
    match s.X, Xarg with
    | some x0, some x => decide (¬ x = x0)
    | _, _ => false
  if oos then Except.error PhateErr.runtimeWarning
  else
    match s.diff_op with
    | none => Except.error PhateErr.notFitted
    | some dop =>
        let s1 := match targ with
          | none => s
          | some tv => { s with t := tv }
        let tUse := match targ with
          | none => s.t
          | some tv => tv
        let r := embed_mds mdsFn lg dop tUse s1.ndim s1.diff_potential
          s1.embedding s1.mds s1.mds_dist
        Except.ok
          ({ s1 with embedding := some r.1, diff_potential := some r.2 }, r.1)

/-- Euclidean distance between one-dimensional points (exactly rational,
used for concrete evaluations). -/
def dAbs1 (r s : List ℚ) : ℚ := |r.headD 0 - s.headD 0|

/-- Concrete stand-in for the abstract float `exp` (only NaN/inf
propagation and finiteness matter in the concrete evaluations). -/
def e0 : ℚ → ℚ := fun q => q

/-- Concrete stand-in for the abstract float `log` on positive finite
arguments. -/
def lg0 : ℚ → ℚ := fun q => q

/-- Concrete stand-in for the external MDS collaborator. -/
def mdsFn0 : MDSFun := fun _ n _ _ => [[(n : ℚ)]]

/-- One-dimensional 4-point input with three coincident points, so the
bandwidth `epsilon = knn_dist[:, 2]` of the first three rows is zero. -/
def M3pts : List (List ℚ) := [[0], [0], [0], [1]]

/-- The spec's concrete scenario: a 4-point input where points 0 and 1
are at distance `1e-12`. -/
def M4pts : List (List ℚ) := [[0], [1 / 1000000000000], [1], [2]]

/-- C3 (code_bug): kernel construction is claimed to raise a
duplicate-data error on a zero k-th-neighbor bandwidth and never to
propagate NaN/inf.  In the code the `except RuntimeWarning` clause never
fires (numpy floating-point warnings are not exceptions by default), so
for the 4-point input with a zero 2nd-neighbor bandwidth the returned
kernel silently contains NaN; and in the spec's own concrete scenario
(points 0 and 1 at distance `1e-12`, `k = 2`) no degenerate division
occurs at all — the bandwidth is the distance to the 2nd neighbor, about
1 — and the kernel is entirely finite, again without any error. -/
theorem C3_degenerate_kernel_silently_nan :
    ((calculate_kernel dAbs1 e0 M3pts 10 2).any (fun r => r.any EF.isNan))
        = true ∧
    ((calculate_kernel dAbs1 e0 M4pts 10 2).all (fun r => r.all EF.isFinite))
        = true := by
  exact ⟨by with_unfolding_all decide, by with_unfolding_all decide⟩

/-- The diffusion operator of the concrete single-point pipeline used to
exhibit the stale-`t` bug of `transform`. -/
def c1Op : List (List EF) := [[EF.fin (1/2)]]

/-- A fitted pipeline state on which `transform` has already been called
with diffusion time `t = 1`: the potential cached in `diff_potential` is
the one derived from `c1Op ^ 1`, and an embedding is cached. -/
def c1S : PHATEState :=
  { initState with
    t := 1
    X := some [[0]]
    gs_ker := some [[EF.fin 1]]
    diff_op := some c1Op
    diff_potential := some (diffPotential lg0 machEps c1Op 1)
    embedding := some [[7]] }

/-- C1 (code_bug): calling `transform` with a new diffusion time `t = 2`
stores `t` but returns the cached embedding `[[7]]` and leaves the cached
potential (derived from `operator ^ 1`) in place — nothing is cleared or
recomputed, although the potential that `t = 2` would produce is
different.  The claim (and spec §4.5) says potential and embedding must
be cleared and recomputed from `operator ^ 2`. -/
theorem C1_transform_new_t_reuses_stale_potential :
    transform mdsFn0 lg0 c1S none (some 2) =
      Except.ok ({ c1S with t := 2 }, [[7]]) ∧
    c1S.diff_potential = some (diffPotential lg0 machEps c1Op 1) ∧
    diffPotential lg0 machEps c1Op 2 ≠ diffPotential lg0 machEps c1Op 1 := by
  exact ⟨by with_unfolding_all rfl, rfl, by with_unfolding_all decide⟩

/-- Three one-dimensional points used to exhibit the stale-parameter
cache reuse of `fit`. -/
def dataC2 : List (List ℚ) := [[0], [1], [3]]

/-- A fresh pipeline with kernel parameters `a = 2`, `k = 1`. -/
def s0C2 : PHATEState := { initState with a := 2, k := 1 }

/-- C2 (code_bug): after fitting on `dataC2` with `a = 2`, changing the
decay rate to `a = 3` and fitting again on the same data performs zero
invocations of the kernel-construction step and keeps the kernel built
with `a = 2`, which differs from the kernel that `a = 3` would produce.
The claim (and spec §8) says a changed `a` or `k` must force the kernel
and all downstream artifacts to be recomputed; `fit` keys its
invalidation only on the input matrix (phate.py line 307). -/
theorem C2_fit_changed_a_reuses_kernel :
    fitKernelCalls { fit dAbs1 e0 s0C2 dataC2 with a := 3 } dataC2 = 0 ∧
    (fit dAbs1 e0 { fit dAbs1 e0 s0C2 dataC2 with a := 3 } dataC2).gs_ker
      = (fit dAbs1 e0 s0C2 dataC2).gs_ker ∧
    (fit dAbs1 e0 s0C2 dataC2).gs_ker
      = some (calculate_kernel dAbs1 e0 dataC2 2 1) ∧
    calculate_kernel dAbs1 e0 dataC2 3 1
      ≠ calculate_kernel dAbs1 e0 dataC2 2 1 := by
  exact ⟨rfl, by with_unfolding_all decide, by with_unfolding_all decide, by with_unfolding_all decide⟩

/-- A fitted pipeline state with every cache populated, used as the
counterexample input for the `reset_diffusion` claim. -/
def c4S : PHATEState :=
  { initState with
    gs_ker := some [[EF.fin 1]]
    diff_op := some [[EF.fin 1]]
    diff_potential := some [[EF.fin 1]]
    embedding := some [[3]]
    X := some [[0]] }

/-- C4 counterexample: `reset_diffusion` clears the cached potential but
does NOT clear the cached embedding attribute, refuting the claim that it
clears both. -/
theorem C4_cex_reset_diffusion_keeps_embedding :
    (reset_diffusion c4S none).diff_potential = none ∧
    (reset_diffusion c4S none).embedding ≠ none := by
  exact ⟨rfl, by with_unfolding_all decide⟩

/-- An affinity matrix whose first row sums to zero. -/
def K5z : List (List EF) := [[EF.fin 0, EF.fin 0], [EF.fin 1, EF.fin 1]]

/-- C5 counterexample: on an affinity matrix with a zero row sum the
non-override normalization raises no error at all; it returns an operator
whose degenerate row is `[NaN, NaN]` (0/0), silently. -/
theorem C5_cex_zero_row_nan_operator :
    (calculate_operator dAbs1 e0 [] 10 5 (some K5z) none).2
      = [[EF.nan, EF.nan], [EF.fin (1/2), EF.fin (1/2)]] := by
  with_unfolding_all decide

/-- C10 (confirmed): `reset_mds` overwrites the stored `mds_dist` with
`None` exactly when the argument is omitted, discards a supplied
non-`None` value, always clears the embedding, and leaves the kernel,
operator and potential caches untouched. -/
theorem C10_reset_mds_behavior (s : PHATEState) (nc : Option ℕ)
    (md : Option MDSKind) :
    (reset_mds s nc md none).mds_dist = none ∧
    (∀ v, (reset_mds s nc md (some v)).mds_dist = s.mds_dist) ∧
    (∀ o, (reset_mds s nc md o).embedding = none ∧
      (reset_mds s nc md o).gs_ker = s.gs_ker ∧
      (reset_mds s nc md o).diff_op = s.diff_op ∧
      (reset_mds s nc md o).diff_potential = s.diff_potential) := by
  cases nc <;> cases md <;>
    exact ⟨rfl, fun v => rfl, fun o => by cases o <;> exact ⟨rfl, rfl, rfl, rfl⟩⟩

/-- C6 (confirmed): `transform` called on a fitted pipeline with a data
matrix different from the fitted one raises the out-of-sample
`RuntimeWarning` before any attribute mutation: no embedding is produced
and the cached state is unchanged (an `error` result carries no state). -/
theorem C6_out_of_sample_guard (mdsFn : MDSFun) (lg : ℚ → ℚ)
    (s : PHATEState) (x y : List (List ℚ)) (targ : Option ℕ)
    (h1 : s.X = some x) (h2 : ¬ y = x) :
    transform mdsFn lg s (some y) targ = Except.error PhateErr.runtimeWarning := by
  unfold transform
  rw [h1]
  simp [h2]

/-- Witness for C6 at a concrete fitted state and a differing matrix. -/
theorem C6_out_of_sample_guard_witness :
    ({ initState with X := some [[(0 : ℚ)]] } : PHATEState).X = some [[(0 : ℚ)]] ∧
    ¬ ([[(1 : ℚ)]] : List (List ℚ)) = [[(0 : ℚ)]] ∧
    transform mdsFn0 lg0 { initState with X := some [[(0 : ℚ)]] }
        (some [[(1 : ℚ)]]) none = Except.error PhateErr.runtimeWarning :=
  ⟨rfl, by with_unfolding_all decide,
    C6_out_of_sample_guard mdsFn0 lg0 _ [[0]] [[1]] none rfl
      (by with_unfolding_all decide)⟩

/-- C4 amended (corrected): `reset_diffusion` clears only the cached
potential, leaving the embedding attribute in place (and kernel and
operator untouched); a subsequent `transform` nevertheless recomputes
both potential and embedding, because `embed_mds` discards the supplied
embedding whenever the potential is absent, and the kernel and operator
are not recomputed (the returned state differs from the reset state only
in the freshly computed potential and embedding). -/
theorem C4_reset_diffusion_amended (mdsFn : MDSFun) (lg : ℚ → ℚ)
    (s : PHATEState) (targ : Option ℕ) (dop : List (List EF))
    (h : s.diff_op = some dop) :
    (reset_diffusion s targ).diff_potential = none ∧
    (reset_diffusion s targ).embedding = s.embedding ∧
    (reset_diffusion s targ).gs_ker = s.gs_ker ∧
    (reset_diffusion s targ).diff_op = s.diff_op ∧
    transform mdsFn lg (reset_diffusion s targ) none none =
      Except.ok
        ({ reset_diffusion s targ with
            diff_potential :=
              some (diffPotential lg machEps dop (reset_diffusion s targ).t)
            embedding :=
              some (mdsFn
                (diffPotential lg machEps dop (reset_diffusion s targ).t)
                s.ndim s.mds s.mds_dist) },
          mdsFn (diffPotential lg machEps dop (reset_diffusion s targ).t)
            s.ndim s.mds s.mds_dist) := by
  obtain ⟨ndim, a, k, t, mds, knd, mdd, nca, gk, dop0, dp, emb, X0⟩ := s
  replace h : dop0 = some dop := h
  subst h
  cases targ <;> cases X0 <;> exact ⟨rfl, rfl, rfl, rfl, rfl⟩

/-- Witness for C4 amended at a concrete fitted state. -/
theorem C4_reset_diffusion_amended_witness :
    c4S.diff_op = some [[EF.fin 1]] ∧
    ((reset_diffusion c4S (some 5)).diff_potential = none ∧
      (reset_diffusion c4S (some 5)).embedding = c4S.embedding ∧
      (reset_diffusion c4S (some 5)).gs_ker = c4S.gs_ker ∧
      (reset_diffusion c4S (some 5)).diff_op = c4S.diff_op ∧
      transform mdsFn0 lg0 (reset_diffusion c4S (some 5)) none none =
        Except.ok
          ({ reset_diffusion c4S (some 5) with
              diff_potential :=
                some (diffPotential lg0 machEps [[EF.fin 1]]
                  (reset_diffusion c4S (some 5)).t)
              embedding :=
                some (mdsFn0
                  (diffPotential lg0 machEps [[EF.fin 1]]
                    (reset_diffusion c4S (some 5)).t)
                  c4S.ndim c4S.mds c4S.mds_dist) },
            mdsFn0 (diffPotential lg0 machEps [[EF.fin 1]]
                (reset_diffusion c4S (some 5)).t)
              c4S.ndim c4S.mds c4S.mds_dist)) :=
  ⟨rfl, C4_reset_diffusion_amended mdsFn0 lg0 c4S (some 5) [[EF.fin 1]] rfl⟩

/-- The input matrix stored by `fit` before computing the operator. -/
theorem fitPre_X (s : PHATEState) (X : List (List ℚ)) :
    (fitPre s X).X = some X := by
  unfold fitPre
  split <;> rfl

/-- `fit` stores the input matrix. -/
theorem fit_X (d : List ℚ → List ℚ → ℚ) (e : ℚ → ℚ) (s : PHATEState)
    (X : List (List ℚ)) : (fit d e s X).X = some X :=
  fitPre_X s X

/-- `fit` always leaves populated kernel and operator caches. -/
theorem fit_caches_some (d : List ℚ → List ℚ → ℚ) (e : ℚ → ℚ)
    (s : PHATEState) (X : List (List ℚ)) :
    ∃ g p, (fit d e s X).gs_ker = some g ∧ (fit d e s X).diff_op = some p :=
  ⟨_, _, rfl, rfl⟩

/-- Refitting with the data already stored performs no cache clearing. -/
theorem fitCleared_of_eq (s : PHATEState) (X : List (List ℚ))
    (h : s.X = some X) : fitCleared s X = s := by
  unfold fitCleared
  rw [h]
  simp

/-- On a fitted state with the same data, the pre-processing of `fit`
is the identity. -/
theorem fitPre_of_fitted (s : PHATEState) (X : List (List ℚ))
    (g p : List (List EF)) (h1 : s.X = some X) (h2 : s.gs_ker = some g)
    (h3 : s.diff_op = some p) : fitPre s X = s := by
  unfold fitPre
  rw [fitCleared_of_eq s X h1]
  have h4 : ({ s with X := some X } : PHATEState) = s := by rw [← h1]
  rw [h4]
  rw [h2, h3]
  simp

/-- C9 (confirmed): a second `fit` with elementwise-identical data and
unchanged parameters performs zero invocations of the
kernel-construction step and leaves the whole state — in particular the
cached kernel, operator, potential and embedding — unchanged. -/
theorem C9_fit_idempotent (d : List ℚ → List ℚ → ℚ) (e : ℚ → ℚ)
    (s : PHATEState) (X : List (List ℚ)) :
    fitKernelCalls (fit d e s X) X = 0 ∧
    fit d e (fit d e s X) X = fit d e s X := by
  obtain ⟨g, p, hg, hp⟩ := fit_caches_some d e s X
  have hpre : fitPre (fit d e s X) X = fit d e s X :=
    fitPre_of_fitted _ X g p (fit_X d e s X) hg hp
  constructor
  · unfold fitKernelCalls
    rw [hpre, hg]
    rfl
  · conv_lhs => rw [fit]
    rw [hpre, hg, hp]
    show ({ fit d e s X with gs_ker := some g, diff_op := some p } :
      PHATEState) = fit d e s X
    rw [← hg, ← hp]

/-- Summing a list of finite floats is exact rational summation. -/
theorem efSum_map_fin (l : List ℚ) : efSum (l.map EF.fin) = EF.fin l.sum := by
  induction l with
  | nil => rfl
  | cons x xs ih =>
      show EF.add (EF.fin x) (efSum (xs.map EF.fin)) = EF.fin (x :: xs).sum
      rw [ih]
      rfl

/-- Dividing every summand by a common denominator divides the sum. -/
theorem sum_map_div (l : List ℚ) (c : ℚ) :
    (l.map (fun q => q / c)).sum = l.sum / c := by
  induction l with
  | nil => simp
  | cons x xs ih => simp [ih, add_div]

/-- C8 (confirmed): on an all-finite affinity matrix whose row sums are
all nonzero, the non-override path of `calculate_operator` returns
exactly the row normalization `operator[i][j] = K[i][j] / sum_j K[i][j]`,
and (in exact arithmetic) every row of the operator sums to exactly 1. -/
theorem C8_row_normalization (d : List ℚ → List ℚ → ℚ) (e : ℚ → ℚ)
    (data : List (List ℚ)) (a k : ℕ) (Kq : List (List ℚ))
    (h : ∀ r ∈ Kq, r.sum ≠ 0) :
    (calculate_operator d e data a k (some (Kq.map (fun r => r.map EF.fin)))
        none).2
      = Kq.map (fun r => r.map (fun q => EF.fin (q / r.sum))) ∧
    ∀ row ∈ (calculate_operator d e data a k
        (some (Kq.map (fun r => r.map EF.fin))) none).2,
      efSum row = EF.fin 1 := by
  have key : (calculate_operator d e data a k
      (some (Kq.map (fun r => r.map EF.fin))) none).2
        = Kq.map (fun r => r.map (fun q => EF.fin (q / r.sum))) := by
    show rowNormalize (Kq.map (fun r => r.map EF.fin))
        = Kq.map (fun r => r.map (fun q => EF.fin (q / r.sum)))
    unfold rowNormalize
    rw [List.map_map]
    apply List.map_congr_left
    intro r hr
    show (r.map EF.fin).map (fun x => EF.div x (efSum (r.map EF.fin)))
        = r.map (fun q => EF.fin (q / r.sum))
    rw [efSum_map_fin, List.map_map]
    apply List.map_congr_left
    intro q _
    show EF.div (EF.fin q) (EF.fin r.sum) = EF.fin (q / r.sum)
    simp [EF.div, h r hr]
  refine ⟨key, ?_⟩
  rw [key]
  intro row hrow
  obtain ⟨r, hr, hrow_eq⟩ := List.mem_map.mp hrow
  rw [← hrow_eq]
  have : r.map (fun q => EF.fin (q / r.sum))
      = (r.map (fun q => q / r.sum)).map EF.fin := by
    rw [List.map_map]
    rfl
  rw [this, efSum_map_fin, sum_map_div, div_self (h r hr)]

/-- Witness for C8 at a concrete 2×2 affinity matrix. -/
theorem C8_row_normalization_witness :
    (∀ r ∈ ([[(1 : ℚ), 3], [2, 2]] : List (List ℚ)), r.sum ≠ 0) ∧
    ((calculate_operator dAbs1 e0 [] 10 5
        (some (([[(1 : ℚ), 3], [2, 2]] : List (List ℚ)).map
          (fun r => r.map EF.fin))) none).2
      = ([[(1 : ℚ), 3], [2, 2]] : List (List ℚ)).map
          (fun r => r.map (fun q => EF.fin (q / r.sum))) ∧
    ∀ row ∈ (calculate_operator dAbs1 e0 [] 10 5
        (some (([[(1 : ℚ), 3], [2, 2]] : List (List ℚ)).map
          (fun r => r.map EF.fin))) none).2,
      efSum row = EF.fin 1) :=
  ⟨by with_unfolding_all decide,
    C8_row_normalization dAbs1 e0 [] 10 5 [[(1 : ℚ), 3], [2, 2]]
      (by with_unfolding_all decide)⟩

/-- If a float sum is finite, every summand is finite (`inf`, `-inf` and
`NaN` all propagate through IEEE addition to a non-finite sum). -/
theorem efSum_fin_elems : ∀ (l : List EF) (s : ℚ), efSum l = EF.fin s →
    ∀ x ∈ l, ∃ q, x = EF.fin q := by
  intro l
  induction l with
  | nil => intro s h x hx; simp at hx
  | cons y ys ih =>
      intro s h x hx
      have hadd : EF.add y (efSum ys) = EF.fin s := h
      cases hy : y <;> rw [hy] at hadd
      case fin qy =>
        cases hys : efSum ys <;> rw [hys] at hadd
        case fin qs =>
          rcases List.mem_cons.mp hx with h1 | h1
          · exact ⟨qy, by rw [h1, hy]⟩
          · exact ih qs hys x h1
        all_goals simp [EF.add] at hadd
      all_goals cases hys : efSum ys <;> rw [hys] at hadd <;>
        simp [EF.add] at hadd

/-- C5 amended (corrected): the non-override normalization of
`calculate_operator` performs no zero-row check and raises no error: it
always returns `K[i][j] / sum_j K[i][j]` elementwise, and on any row
whose sum is zero every entry of the corresponding operator row is
non-finite (`NaN` for zero entries, `±inf` for nonzero ones) — the
degenerate division is silently propagated. -/
theorem C5_zero_row_amended (d : List ℚ → List ℚ → ℚ) (e : ℚ → ℚ)
    (data : List (List ℚ)) (a k : ℕ) (K : List (List EF)) :
    (calculate_operator d e data a k (some K) none).2
      = K.map (fun row => row.map (fun x => EF.div x (efSum row))) ∧
    ∀ row ∈ K, efSum row = EF.fin 0 →
      ∀ x ∈ row, (EF.div x (efSum row)).isFinite = false := by
  refine ⟨rfl, ?_⟩
  intro row hrow hsum x hx
  obtain ⟨q, hq⟩ := efSum_fin_elems row 0 hsum x hx
  rw [hq, hsum]
  by_cases hq0 : q = 0
  · simp [EF.div, hq0, EF.isFinite]
  · by_cases hqpos : 0 < q
    · simp [EF.div, hq0, hqpos, EF.isFinite]
    · simp [EF.div, hq0, hqpos, EF.isFinite]

/-- Witness for C5 amended on a row with entries `1` and `-1` (sum 0):
the normalized entry `1 / 0` is non-finite. -/
theorem C5_zero_row_amended_witness :
    efSum [EF.fin 1, EF.fin (-1)] = EF.fin 0 ∧
    (EF.div (EF.fin 1) (efSum [EF.fin 1, EF.fin (-1)])).isFinite = false :=
  ⟨by with_unfolding_all decide,
    (C5_zero_row_amended dAbs1 e0 [] 10 5
        [[EF.fin 1, EF.fin (-1)], [EF.fin 1, EF.fin 1]]).2
      [EF.fin 1, EF.fin (-1)] (by simp)
      (by with_unfolding_all decide) (EF.fin 1) (by simp)⟩

/-- Every element of a `getD` lookup is a list element or the default. -/
theorem getD_mem_or {α : Type} (l : List α) (j : ℕ) (dflt : α) :
    l.getD j dflt ∈ l ∨ l.getD j dflt = dflt := by
  induction l generalizing j with
  | nil => right; rfl
  | cons y ys ih =>
      cases j with
      | zero => left; exact List.mem_cons_self y ys
      | succ n =>
          rcases ih n with h | h
          · left; exact List.mem_cons_of_mem _ h
          · right; exact h

/-- Elements of a `zipWith` come from the two lists. -/
theorem mem_zipWith_elim {α β γ : Type} (f : α → β → γ) :
    ∀ (l1 : List α) (l2 : List β) (c : γ), c ∈ List.zipWith f l1 l2 →
      ∃ a b, a ∈ l1 ∧ b ∈ l2 ∧ c = f a b := by
  intro l1
  induction l1 with
  | nil => intro l2 c hc; simp at hc
  | cons x xs ih =>
      intro l2 c hc
      cases l2 with
      | nil => simp at hc
      | cons y ys =>
          rcases List.mem_cons.mp hc with h | h
          · exact ⟨x, y, List.mem_cons_self x xs, List.mem_cons_self y ys, h⟩
          · obtain ⟨a, b, ha, hb, hab⟩ := ih ys c h
            exact ⟨a, b, List.mem_cons_of_mem _ ha,
              List.mem_cons_of_mem _ hb, hab⟩

/-- All entries of a matrix are finite floats. -/
def MatFin (A : List (List EF)) : Prop :=
  ∀ row ∈ A, ∀ x ∈ row, x.isFinite = true

/-- IEEE addition of finite values is finite. -/
theorem efAdd_fin {x y : EF} (hx : x.isFinite = true)
    (hy : y.isFinite = true) : (EF.add x y).isFinite = true := by
  cases x <;> cases y <;> simp_all [EF.isFinite, EF.add]

/-- IEEE multiplication of finite values is finite. -/
theorem efMul_fin {x y : EF} (hx : x.isFinite = true)
    (hy : y.isFinite = true) : (EF.mul x y).isFinite = true := by
  cases x <;> cases y <;> simp_all [EF.isFinite, EF.mul]

/-- A sum of finite values is finite. -/
theorem efSum_fin {l : List EF} (h : ∀ x ∈ l, x.isFinite = true) :
    (efSum l).isFinite = true := by
  induction l with
  | nil => rfl
  | cons y ys ih =>
      exact efAdd_fin (h y (List.mem_cons_self y ys))
        (ih fun x hx => h x (List.mem_cons_of_mem _ hx))

/-- Matrix multiplication preserves all-finiteness. -/
theorem matFin_mul {A B : List (List EF)} (hA : MatFin A) (hB : MatFin B) :
    MatFin (matMulEF A B) := by
  intro row hrow x hx
  obtain ⟨r, hr, hrow_eq⟩ := List.mem_map.mp hrow
  rw [← hrow_eq] at hx
  obtain ⟨j, _, hx_eq⟩ := List.mem_map.mp hx
  rw [← hx_eq]
  apply efSum_fin
  intro z hz
  obtain ⟨p, br, hp, hbr, hz_eq⟩ := mem_zipWith_elim _ _ _ _ hz
  rw [hz_eq]
  apply efMul_fin (hA r hr p hp)
  rcases getD_mem_or br j (EF.fin 0) with h | h
  · exact hB br hbr _ h
  · rw [h]; rfl

/-- The identity matrix is all-finite. -/
theorem matFin_id (n : ℕ) : MatFin (idMat n) := by
  intro row hrow x hx
  obtain ⟨i, _, hrow_eq⟩ := List.mem_map.mp hrow
  rw [← hrow_eq] at hx
  obtain ⟨j, _, hx_eq⟩ := List.mem_map.mp hx
  rw [← hx_eq]
  by_cases h : i = j <;> simp [h, EF.isFinite]

/-- Matrix powers of an all-finite matrix are all-finite (in exact
rational arithmetic no overflow to `inf` can occur). -/
theorem matFin_pow {A : List (List EF)} (hA : MatFin A) (t : ℕ) :
    MatFin (matPowEF A t) := by
  induction t with
  | zero => exact matFin_id A.length
  | succ n ih => exact matFin_mul ih hA

/-- The numerical floor maps any finite entry to a finite entry bounded
below by the floor constant. -/
theorem floorEntry_ge {eps : ℚ} {x : EF} (hx : x.isFinite = true) :
    ∃ q, floorEntry eps x = EF.fin q ∧ eps ≤ q := by
  cases x with
  | fin q =>
      by_cases h0 : q = 0
      · exact ⟨eps, by simp [floorEntry, EF.beq, h0, EF.le], le_refl eps⟩
      · by_cases hle : q ≤ eps
        · exact ⟨eps, by simp [floorEntry, EF.beq, h0, EF.le, hle],
            le_refl eps⟩
        · exact ⟨q, by simp [floorEntry, EF.beq, h0, EF.le, hle],
            (not_le.mp hle).le⟩
  | inf => simp [EF.isFinite] at hx
  | neginf => simp [EF.isFinite] at hx
  | nan => simp [EF.isFinite] at hx

/-- `-log` of a positive finite float is finite. -/
theorem negLog_fin (lg : ℚ → ℚ) {q : ℚ} (hq : 0 < q) :
    (EF.negLog lg (EF.fin q)).isFinite = true := by
  simp [EF.negLog, not_lt.mpr hq.le, hq.ne', EF.isFinite]

/-- C7 (confirmed): for any diffusion operator with finite real entries
and any diffusion time `t ≥ 1` (`t ≥ 0` even), every entry of the
diffusion potential `-ln(floor(operator^t))` computed by `embed_mds` is
finite — the flooring to machine epsilon happens before the logarithm,
so exact zeros and subepsilon entries of the matrix power produce
`-ln(eps)`, never `inf` or `NaN`. -/
theorem C7_potential_finite (lg : ℚ → ℚ) (opq : List (List ℚ)) (t : ℕ)
    (ht : 1 ≤ t) :
    ∀ row ∈ diffPotential lg machEps (opq.map (fun r => r.map EF.fin)) t,
      ∀ x ∈ row, x.isFinite = true := by
  have hop : MatFin (opq.map (fun r => r.map EF.fin)) := by
    intro row hrow x hx
    obtain ⟨r, _, hrow_eq⟩ := List.mem_map.mp hrow
    rw [← hrow_eq] at hx
    obtain ⟨q, _, hx_eq⟩ := List.mem_map.mp hx
    rw [← hx_eq]
    rfl
  have hpow := matFin_pow hop t
  intro row hrow x hx
  unfold diffPotential at hrow
  obtain ⟨row1, hrow1, hrow_eq⟩ := List.mem_map.mp hrow
  rw [← hrow_eq] at hx
  obtain ⟨x1, hx1, hx_eq⟩ := List.mem_map.mp hx
  unfold floorEps at hrow1
  obtain ⟨row0, hrow0, hrow1_eq⟩ := List.mem_map.mp hrow1
  rw [← hrow1_eq] at hx1
  obtain ⟨x0, hx0, hx1_eq⟩ := List.mem_map.mp hx1
  have hx0fin : x0.isFinite = true := hpow row0 hrow0 x0 hx0
  obtain ⟨q, hq, hqe⟩ := @floorEntry_ge machEps x0 hx0fin
  have hqpos : 0 < q := lt_of_lt_of_le (by norm_num [machEps]) hqe
  rw [← hx_eq, ← hx1_eq, hq]
  exact negLog_fin lg hqpos

/-- Witness for C7 on a concrete 2×2 operator containing a zero entry,
at `t = 1`. -/
theorem C7_potential_finite_witness :
    1 ≤ 1 ∧
    ∀ row ∈ diffPotential lg0 machEps
        (([[(0 : ℚ), 1], [1, 0]] : List (List ℚ)).map (fun r => r.map EF.fin))
        1,
      ∀ x ∈ row, EF.isFinite x = true :=
  ⟨le_refl 1, C7_potential_finite lg0 [[(0 : ℚ), 1], [1, 0]] 1 (le_refl 1)⟩
